import Mathlib

/-
Verification of the ranking and retrieval engine of the Discover-India
repository (src/app.py) against its natural-language specification.

Modelling conventions:
- Python strings are Lean String values; the string operations the code
  uses (str.lower, the substring operator "in", str.strip) are modelled
  on the underlying character lists, since the corresponding String
  library functions do not reduce in the kernel.
- A pandas DataFrame row is a Place record; the DataFrame is the ordered
  List Place (catalog order = input order).  Column values derived at
  load time (popularity_score, combined_text, app.py lines 35 and 38)
  are modelled as functions of the record.
- popularity_score = rating * ln(1 + review_volume) is real-valued; it
  is modelled exactly over the reals, and the float comparisons made by
  pandas sorts are modelled as exact real comparisons.
- The TF-IDF cosine-similarity matrix (app.py lines 66-70) is a
  real-valued computation whose entries only feed a sort; it enters the
  model as an explicit matrix parameter (sim : Nat -> Nat -> Rat) of the
  operations that use it.  Claims quantified over catalogs are proved
  for every matrix, which subsumes the actual cosine matrix; the one
  counterexample that needs the actual matrix uses a catalog with two
  rows whose combined_text strings are identical, for which every entry
  of the relevant cosine row is the same value (identical input rows
  give identical TF-IDF vectors, in exact arithmetic and in floats), so
  a constant matrix realizes the actual comparisons.
- Python sorted(...) and list.sort are stable; pandas nlargest and
  multi-column sort_values (which uses numpy lexsort) are stable,
  descending.  All are modelled by one stable descending insertion sort.
- int(n * 0.6) at app.py line 92 is a double-precision computation; it
  is modelled exactly by round-to-nearest-even rounding of rationals to
  the 53-bit significand grid (the inputs stay in the normal range).
-/

namespace DiscoverIndia

/-! ## String operations (Python str.lower, "in", str.strip) -/

/-- Python s.lower(), modelled on the character list of the string. -/
def lowerChars (s : String) : List Char := s.data.map Char.toLower

/-- Python needle in hay (contiguous substring test). -/
def containsChars (hay needle : List Char) : Bool := decide (needle <:+: hay)

/-- Python s.strip(): remove leading and trailing whitespace. -/
def trimChars (l : List Char) : List Char :=
  ((l.dropWhile Char.isWhitespace).reverse.dropWhile Char.isWhitespace).reverse

/-! ## Data model: one catalog row (app.py load_data) -/

/-- One row of the places DataFrame after load_data has run: the text
columns, the two numeric columns after coercion and mean imputation
(kept as exact rationals), and the image column. -/
structure Place where
  name : String
  city : String
  state : String
  bestTime : String
  imageUrl : String
  rating : ℚ
  reviewVolume : ℚ
deriving DecidableEq, Inhabited

/-- Derived column combined_text (app.py line 38):
State + space + City + space + Name + space + Best Time to visit. -/
def combinedText (p : Place) : String :=
  p.state ++ " " ++ p.city ++ " " ++ p.name ++ " " ++ p.bestTime

/-- Derived column popularity_score (app.py line 35):
rating * np.log1p(review volume), an exact real number. -/
noncomputable def popularityScore (p : Place) : ℝ :=
  (p.rating : ℝ) * Real.log (1 + (p.reviewVolume : ℝ))

/-! ## Stable descending sort

Python sorted with reverse=True, pandas nlargest and pandas
multi-column sort_values(ascending=False) are all stable descending
sorts; they are modelled by insertion sort: an element is inserted in
front of the first already-placed element that does not rank strictly
above it.  Since insertion proceeds from the back of the list, already
placed elements come later in the original order, so ties keep original
(catalog) order. -/

/-- Insert x in front of the first element y with le y x (y ranks at or
below x); elements ranking strictly above x stay in front. -/
def insertByDesc {α : Type} (le : α → α → Bool) (x : α) : List α → List α
  | [] => [x]
  | y :: ys => if le y x then x :: y :: ys else y :: insertByDesc le x ys

/-- Stable descending sort by the comparator le (le a b = a ranks at or
below b). -/
def sortByDesc {α : Type} (le : α → α → Bool) (l : List α) : List α :=
  l.foldr (insertByDesc le) []

/-! ## Deduplication (pandas drop_duplicates, keep=first; and the
seen-set loop of get_autocomplete_suggestions) -/

/-- Keep each element whose key has not been seen before. -/
def dedupByKeyAux {α β : Type} [DecidableEq β] (k : α → β) (seen : List β) :
    List α → List α
  | [] => []
  | x :: xs =>
    if k x ∈ seen then dedupByKeyAux k seen xs
    else x :: dedupByKeyAux k (k x :: seen) xs

/-- Deduplicate a list by a key, keeping the first occurrence of each
key (pandas drop_duplicates with keep=first; full-row deduplication is
the instance k = id). -/
def dedupByKey {α β : Type} [DecidableEq β] (k : α → β) (l : List α) : List α :=
  dedupByKeyAux k [] l

/-! ## IEEE-754 binary64 rounding, for int(n * 0.6) at app.py line 92

CPython evaluates n * 0.6 by converting the int n to a double (one
round-to-nearest-even), multiplying by the double nearest to the
literal 0.6 (one more correctly rounded operation), and int() truncates
toward zero.  All values involved are positive and far inside the
normal range, so rounding a positive rational to the nearest element of
the 53-significant-bit grid models the computation exactly. -/

/-- Round a rational to the nearest integer, ties to even. -/
def rnei (q : ℚ) : ℤ :=
  if q - ⌊q⌋ < 1 / 2 then ⌊q⌋
  else if 1 / 2 < q - ⌊q⌋ then ⌊q⌋ + 1
  else if 2 ∣ ⌊q⌋ then ⌊q⌋ else ⌊q⌋ + 1

/-- Round a positive rational to the nearest IEEE binary64 value
(round to nearest, ties to even), exactly, assuming the normal range:
the representable values around x are the integer multiples of
2 ^ (exponent of x - 52). -/
def roundNE (x : ℚ) : ℚ :=
  if x ≤ 0 then 0
  else (rnei (x / 2 ^ (Int.log 2 x - 52)) : ℚ) * 2 ^ (Int.log 2 x - 52)

/-- The IEEE binary64 value nearest to the source literal 0.6, namely
5404319552844595 * 2 ^ (-53); the theorem float06_eq_roundNE checks it
against roundNE (3 / 5). -/
def float06 : ℚ := 5404319552844595 / 2 ^ 53

/-- collab_count = int(n_recommendations * 0.6) (app.py line 92),
modelled as the exact double computation: truncation toward zero (=
floor, the value is nonnegative) of fl(fl(n) * fl(0.6)). -/
def collabCountF (n : ℕ) : ℕ := (⌊roundNE (roundNE (n : ℚ) * float06)⌋).toNat

/-- content_count = n_recommendations - collab_count (app.py line 96). -/
def contentCountF (n : ℕ) : ℕ := n - collabCountF n

/-! ## SimilarityIndex (app.py content_based_recommendations) -/

/-- Resolution of a place-name query (app.py lines 58-63): the index of
the first row whose lower-cased Name contains the lower-cased query. -/
def resolveIdx (cat : List Place) (placeName : String) : Option ℕ :=
  cat.findIdx? (fun p => containsChars (lowerChars p.name) (lowerChars placeName))

/-- Comparator on (index, similarity) pairs for the stable descending
sort at app.py line 74 (sort key is the similarity value). -/
def simLE (a b : ℕ × ℚ) : Bool := decide (a.2 ≤ b.2)

/-- list(enumerate(cosine_sim[place_idx])) (app.py line 73). -/
def simScores (numRows : ℕ) (simRow : ℕ → ℚ) : List (ℕ × ℚ) :=
  (List.range numRows).map (fun j => (j, simRow j))

/-- The row indices returned by content_based_recommendations once the
query resolved: sort the (index, similarity) pairs descending by
similarity (stable), slice [1 : n+1], keep the indices (lines 74-77). -/
def contentIndices (numRows : ℕ) (simRow : ℕ → ℚ) (n : ℕ) : List ℕ :=
  ((((sortByDesc simLE (simScores numRows simRow))).drop 1).take n).map Prod.fst

/-- content_based_recommendations(place_name, n) (app.py lines 55-78).
The cosine matrix of the TF-IDF vectors of combined_text is the
parameter sim.  If no row name matches, fall back to df.head(n). -/
def contentBasedRecommendations (cat : List Place) (sim : ℕ → ℕ → ℚ)
    (placeName : String) (n : ℕ) : List Place :=
  match resolveIdx cat placeName with
  | none => cat.take n
  | some r => (contentIndices cat.length (sim r) n).map (fun i => cat.getD i default)

/-! ## PopularityRanker (app.py collaborative_recommendations) -/

/-- Comparator for sorts keyed by popularity_score. -/
noncomputable def popLE (a b : Place) : Bool :=
  decide (popularityScore a ≤ popularityScore b)

/-- df.nlargest(n, popularity_score): stable descending selection. -/
noncomputable def nlargestPop (n : ℕ) (l : List Place) : List Place :=
  (sortByDesc popLE l).take n

/-- collaborative_recommendations(n) (app.py lines 84-86). -/
noncomputable def collaborativeRecommendations (cat : List Place) (n : ℕ) :
    List Place :=
  nlargestPop n cat

/-- Comparator stated the way the spec describes the ranking: by
popularity descending, ties broken by ascending catalog index.  Used by
the spec-side definition topSpec. -/
noncomputable def popLE3 (a b : ℕ × Place) : Bool :=
  decide (popularityScore a.2 < popularityScore b.2 ∨
    (popularityScore a.2 = popularityScore b.2 ∧ b.1 ≤ a.1))

/-- Modelled from the words of the spec (section 4.3): sort all rows
descending by popularity_score, ties broken by ascending catalog order,
return the first n.  Compared with collaborativeRecommendations. -/
noncomputable def topSpec (n : ℕ) (cat : List Place) : List Place :=
  ((sortByDesc popLE3 cat.enum).map Prod.snd).take n

/-! ## HybridRecommender (app.py hybrid_recommendations) -/

/-- The content pieces of the hybrid blend (app.py lines 97-108): for
each of the 10 most popular places, in ranked order, the 2 similar
places for its name; empty results are skipped. -/
noncomputable def hybridContentPieces (cat : List Place) (sim : ℕ → ℕ → ℚ) :
    List (List Place) :=
  ((nlargestPop 10 cat).map
    (fun s => contentBasedRecommendations cat sim s.name 2)).filter
    (fun l => !l.isEmpty)

/-- content_recs after concat, full-row drop_duplicates and
head(content_count) (app.py lines 110-114); when no piece exists the
result is the empty frame. -/
noncomputable def hybridContentRecs (cat : List Place) (sim : ℕ → ℕ → ℚ)
    (n : ℕ) : List Place :=
  (dedupByKey id (hybridContentPieces cat sim).flatten).take (contentCountF n)

/-- combined (app.py lines 117-120): when content rows exist, the
concatenation of the collaborative rows and the content rows is
deduplicated on Name; otherwise the collaborative rows alone. -/
noncomputable def hybridCombined (cat : List Place) (sim : ℕ → ℕ → ℚ)
    (n : ℕ) : List Place :=
  if (hybridContentRecs cat sim n).isEmpty then nlargestPop (collabCountF n) cat
  else dedupByKey Place.name
    (nlargestPop (collabCountF n) cat ++ hybridContentRecs cat sim n)

/-- hybrid_recommendations(n) (app.py lines 89-125): the combined rows,
re-sorted by popularity (nlargest), truncated to n. -/
noncomputable def hybridRecommendations (cat : List Place) (sim : ℕ → ℕ → ℚ)
    (n : ℕ) : List Place :=
  nlargestPop n (hybridCombined cat sim n)

/-! ## SearchMatcher (app.py search_places) -/

/-- The additive relevance score (app.py lines 149-167) of a row for
the lower-cased query ql: +10/+8/+6 for exact (case-insensitive)
equality of name/city/state, plus +5/+3/+2 for substring containment in
name/city/state.  Exact and partial bonuses for the same field stack. -/
def relevanceScore (ql : List Char) (p : Place) : ℤ :=
  (if lowerChars p.name = ql then 10 else 0) +
  (if lowerChars p.city = ql then 8 else 0) +
  (if lowerChars p.state = ql then 6 else 0) +
  (if containsChars (lowerChars p.name) ql then 5 else 0) +
  (if containsChars (lowerChars p.city) ql then 3 else 0) +
  (if containsChars (lowerChars p.state) ql then 2 else 0)

/-- The qualifying mask (app.py lines 136-141): the lower-cased query
is contained in lower-cased Name, City, State or Best Time to visit. -/
def qualifies (ql : List Char) (p : Place) : Bool :=
  containsChars (lowerChars p.name) ql || containsChars (lowerChars p.city) ql ||
  containsChars (lowerChars p.state) ql || containsChars (lowerChars p.bestTime) ql

/-- Comparator of the stable two-key sort at app.py line 170
(sort_values by relevance then popularity, both descending; pandas
multi-column sort_values lexsorts stably). -/
noncomputable def searchLE (ql : List Char) (a b : Place) : Bool :=
  decide (relevanceScore ql a < relevanceScore ql b ∨
    (relevanceScore ql a = relevanceScore ql b ∧
      popularityScore a ≤ popularityScore b))

/-- search_places(query, n) (app.py lines 132-172). -/
noncomputable def searchPlaces (cat : List Place) (query : String) (nResults : ℕ) :
    List Place :=
  let ql := lowerChars query
  let results := cat.filter (qualifies ql)
  if results.isEmpty then results
  else (sortByDesc (searchLE ql) results).take nResults

/-- Comparator stated the way the claim describes the search order:
relevance descending, then popularity descending, remaining ties broken
by ascending catalog index. -/
noncomputable def searchLE3 (ql : List Char) (a b : ℕ × Place) : Bool :=
  decide (relevanceScore ql a.2 < relevanceScore ql b.2 ∨
    (relevanceScore ql a.2 = relevanceScore ql b.2 ∧
      (popularityScore a.2 < popularityScore b.2 ∨
        (popularityScore a.2 = popularityScore b.2 ∧ b.1 ≤ a.1))))

/-- Modelled from the words of the spec (section 4.5): the qualifying
rows sorted by (relevance desc, popularity desc, catalog index asc),
truncated to the first n.  Compared with searchPlaces. -/
noncomputable def searchPlacesSpec (cat : List Place) (query : String) (n : ℕ) :
    List Place :=
  let ql := lowerChars query
  ((sortByDesc (searchLE3 ql) (cat.enum.filter (fun ia => qualifies ql ia.2))).map
    Prod.snd).take n

/-! ## AutocompleteMatcher (app.py get_autocomplete_suggestions) -/

/-- One autocomplete suggestion record. -/
structure Suggestion where
  sugType : String
  text : String
  location : String
  rating : ℚ
  relevance : ℕ
deriving DecidableEq

/-- get_autocomplete_suggestions(query, max_suggestions) (app.py lines
175-227).  Matching against Name, City, State is case-sensitive; the
three suggestion groups carry priorities 100, 50, 25; duplicates are
removed by the key type + underscore + text, first occurrence kept; the
final sort by relevance is stable descending. -/
def getAutocompleteSuggestions (cat : List Place) (query : String)
    (maxSuggestions : ℕ) : List Suggestion :=
  if (trimChars query.data).length < 2 then []
  else
    let q := trimChars query.data
    let nameSugs := (cat.filter (fun p => containsChars p.name.data q)).map
      (fun p => Suggestion.mk "name" p.name (p.city ++ ", " ++ p.state) p.rating 100)
    let citySugs := (cat.filter (fun p => containsChars p.city.data q)).map
      (fun p => Suggestion.mk "city" p.city p.state p.rating 50)
    let stateSugs := (cat.filter (fun p => containsChars p.state.data q)).map
      (fun p => Suggestion.mk "state" p.state "State" p.rating 25)
    let unique := dedupByKey (fun s : Suggestion => s.sugType ++ "_" ++ s.text)
      (nameSugs ++ citySugs ++ stateSugs)
    (sortByDesc (fun a b : Suggestion => decide (a.relevance ≤ b.relevance))
      unique).take maxSuggestions

/-! ## Feed endpoint (app.py feed, lines 233-291) -/

/-- The observable payload of the feed endpoint. -/
structure FeedPage where
  places : List Place
  page : ℕ
  hasMore : Bool

/-- The feed computation (app.py lines 242-281): offset = (page-1) *
limit; recommendations = hybrid_recommendations(limit + offset); if
that is empty fall back to collaborative_recommendations(limit +
offset); slice [offset : offset + limit]; has_more = (slice length ==
limit). -/
noncomputable def feed (cat : List Place) (sim : ℕ → ℕ → ℚ)
    (page limit : ℕ) : FeedPage :=
  let offset := (page - 1) * limit
  let recs := hybridRecommendations cat sim (limit + offset)
  let recs2 := if recs.isEmpty then collaborativeRecommendations cat (limit + offset)
    else recs
  let pageResults := (recs2.drop offset).take limit
  FeedPage.mk pageResults page (decide (pageResults.length = limit))

/-! ## Concrete catalogs used by scenario claims and counterexamples -/

/-- Scenario row A of spec section 8. -/
def placeA : Place := Place.mk "Taj Mahal" "Agra" "Uttar Pradesh" "" "" (24 / 5) 50

/-- Scenario row B of spec section 8. -/
def placeB : Place := Place.mk "Red Fort" "Delhi" "Delhi" "" "" (9 / 2) 30

/-- Scenario row C of spec section 8. -/
def placeC : Place := Place.mk "Goa Beach" "Panaji" "Goa" "" "" (21 / 5) 40

/-- The three-row scenario catalog of spec section 8. -/
def scenarioCatalog : List Place := [placeA, placeB, placeC]

/-- Counterexample catalog row 0: its name does not contain the query
fort, but its combined_text equals that of row 1. -/
def cexPlace0 : Place := Place.mk "" " Fort" "Red" "" "" 1 1

/-- Counterexample catalog row 1: its name contains the query fort, and
its combined_text equals that of row 0. -/
def cexPlace1 : Place := Place.mk "Fort" "" "Red" " " "" 1 1

/-- Two-row catalog on which similar_to returns the resolved row
itself: rows 0 and 1 have identical combined_text, hence identical
TF-IDF vectors and a constant cosine-similarity matrix, and the
resolved row is row 1. -/
def cexCatalog : List Place := [cexPlace0, cexPlace1]

/-- The cosine matrix of cexCatalog: both rows have the same
combined_text, hence the same TF-IDF vector v, so every entry is the
cosine of v with itself; all four entries are one and the same value
(1 in exact arithmetic; one common float in float arithmetic).  Any
constant matrix produces the comparisons the code makes; the constant
is taken to be 1. -/
def cexSim : ℕ → ℕ → ℚ := fun _ _ => 1

/-- Witness catalog rows for the amended claim C1. -/
def wPlaceA : Place := Place.mk "Alpha" "X" "Y" "" "" 4 1

/-- Second witness catalog row. -/
def wPlaceB : Place := Place.mk "Beta" "X" "Y" "" "" 3 1

/-- Witness catalog for the amended claim C1. -/
def wCatalog : List Place := [wPlaceA, wPlaceB]

/-- Witness similarity matrix: the diagonal strictly dominates. -/
def wSim : ℕ → ℕ → ℚ := fun i j => if i = j then 1 else 0

/-- Single-row catalog for the C9 counterexample. -/
def onePlace : Place := Place.mk "Solo" "X" "Y" "" "" 4 1

/-- The one-row catalog. -/
def oneCatalog : List Place := [onePlace]

/-- Cosine matrix of the one-row catalog (the single diagonal entry). -/
def oneSim : ℕ → ℕ → ℚ := fun _ _ => 1

/-! ## Lemmas about the stable descending sort -/

theorem insertByDesc_perm {α : Type} (le : α → α → Bool) (x : α) (l : List α) :
    List.Perm (insertByDesc le x l) (x :: l) := by
  induction l with
  | nil => simp [insertByDesc]
  | cons y ys ih =>
    by_cases h : le y x = true
    · simp [insertByDesc, h]
    · simp only [insertByDesc, h, if_false, Bool.false_eq_true]
      exact ((ih.cons y).trans (List.Perm.swap x y ys))

theorem sortByDesc_perm {α : Type} (le : α → α → Bool) (l : List α) :
    List.Perm (sortByDesc le l) l := by
  induction l with
  | nil => simp [sortByDesc]
  | cons x xs ih =>
    have h1 : sortByDesc le (x :: xs) = insertByDesc le x (sortByDesc le xs) := rfl
    rw [h1]
    exact (insertByDesc_perm le x (sortByDesc le xs)).trans (ih.cons x)

theorem length_sortByDesc {α : Type} (le : α → α → Bool) (l : List α) :
    (sortByDesc le l).length = l.length :=
  (sortByDesc_perm le l).length_eq

theorem mem_sortByDesc {α : Type} {le : α → α → Bool} {l : List α} {x : α} :
    x ∈ sortByDesc le l ↔ x ∈ l :=
  (sortByDesc_perm le l).mem_iff

theorem insertByDesc_pairwise {α : Type} {le : α → α → Bool}
    (htot : ∀ a b, le a b = true ∨ le b a = true)
    (htrans : ∀ a b c, le a b = true → le b c = true → le a c = true)
    (x : α) (l : List α) (hl : List.Pairwise (fun a b => le b a = true) l) :
    List.Pairwise (fun a b => le b a = true) (insertByDesc le x l) := by
  induction l with
  | nil => simp [insertByDesc]
  | cons y ys ih =>
    rcases List.pairwise_cons.mp hl with ⟨hy, hys⟩
    by_cases h : le y x = true
    · simp only [insertByDesc, h, if_true]
      refine List.pairwise_cons.mpr ⟨?_, hl⟩
      intro z hz
      rcases List.mem_cons.mp hz with hz | hz
      · subst hz; exact h
      · exact htrans _ _ _ (hy z hz) h
    · simp only [insertByDesc, h, if_false, Bool.false_eq_true]
      refine List.pairwise_cons.mpr ⟨?_, ih hys⟩
      intro z hz
      have hz1 := (insertByDesc_perm le x ys).mem_iff.mp hz
      rcases List.mem_cons.mp hz1 with hz2 | hz2
      · subst hz2
        rcases htot y z with h2 | h2
        · exact absurd h2 (by simpa using h)
        · exact h2
      · exact hy z hz2

theorem sortByDesc_pairwise {α : Type} {le : α → α → Bool}
    (htot : ∀ a b, le a b = true ∨ le b a = true)
    (htrans : ∀ a b c, le a b = true → le b c = true → le a c = true)
    (l : List α) :
    List.Pairwise (fun a b => le b a = true) (sortByDesc le l) := by
  induction l with
  | nil => simp [sortByDesc]
  | cons x xs ih => exact insertByDesc_pairwise htot htrans x _ ih

/-- Inserting the element with the smallest index commutes with
forgetting indices, provided the indexed comparator agrees with the
plain one on every pair whose first component is larger. -/
theorem insertByDesc_map_snd {α : Type} (le : α → α → Bool)
    (le2 : ℕ × α → ℕ × α → Bool) (x : ℕ × α) (s : List (ℕ × α))
    (h : ∀ y ∈ s, le2 y x = le y.2 x.2) :
    List.map Prod.snd (insertByDesc le2 x s) =
      insertByDesc le x.2 (List.map Prod.snd s) := by
  induction s with
  | nil => simp [insertByDesc]
  | cons y ys ih =>
    have hy : le2 y x = le y.2 x.2 := h y (by simp)
    by_cases hc : le y.2 x.2 = true
    · simp [insertByDesc, hy, hc]
    · have hc2 : le2 y x = false := by rw [hy]; simpa using hc
      simp only [insertByDesc, hc2, hy, if_false, Bool.false_eq_true, List.map_cons]
      rw [if_neg hc, ih (fun z hz => h z (by simp [hz]))]

/-- Stability as an index tie-break: on a list whose first components
are strictly increasing, a stable descending sort equals the sort whose
comparator additionally breaks ties by ascending first component. -/
theorem sortByDesc_map_snd {α : Type} (le : α → α → Bool)
    (le2 : ℕ × α → ℕ × α → Bool)
    (hc : ∀ x y : ℕ × α, x.1 < y.1 → le2 y x = le y.2 x.2)
    (l : List (ℕ × α)) (hl : List.Pairwise (fun a b => a.1 < b.1) l) :
    List.map Prod.snd (sortByDesc le2 l) = sortByDesc le (List.map Prod.snd l) := by
  induction l with
  | nil => simp [sortByDesc]
  | cons x xs ih =>
    rcases List.pairwise_cons.mp hl with ⟨hx, hxs⟩
    have h1 : sortByDesc le2 (x :: xs) = insertByDesc le2 x (sortByDesc le2 xs) := rfl
    have h2 : sortByDesc le (List.map Prod.snd (x :: xs)) =
        insertByDesc le x.2 (sortByDesc le (List.map Prod.snd xs)) := rfl
    rw [h1, h2, ← ih hxs]
    apply insertByDesc_map_snd
    intro y hy
    exact hc x y (hx y (mem_sortByDesc.mp hy))

/-! ## Lemmas about deduplication -/

theorem dedupByKeyAux_sublist {α β : Type} [DecidableEq β] (k : α → β)
    (seen : List β) (l : List α) : (dedupByKeyAux k seen l).Sublist l := by
  induction l generalizing seen with
  | nil => simp [dedupByKeyAux]
  | cons x xs ih =>
    by_cases h : k x ∈ seen
    · simp only [dedupByKeyAux, if_pos h]
      exact (ih seen).trans (List.sublist_cons_self x xs)
    · simp only [dedupByKeyAux, if_neg h]
      exact (ih (k x :: seen)).cons₂ x

theorem dedupByKeyAux_spec {α β : Type} [DecidableEq β] (k : α → β)
    (seen : List β) (l : List α) :
    (List.map k (dedupByKeyAux k seen l)).Nodup ∧
      ∀ a ∈ dedupByKeyAux k seen l, k a ∉ seen := by
  induction l generalizing seen with
  | nil => simp [dedupByKeyAux]
  | cons x xs ih =>
    by_cases h : k x ∈ seen
    · simpa [dedupByKeyAux, if_pos h] using ih seen
    · rcases ih (k x :: seen) with ⟨h1, h2⟩
      simp only [dedupByKeyAux, if_neg h, List.map_cons, List.nodup_cons]
      refine ⟨⟨?_, h1⟩, ?_⟩
      · intro hmem
        rcases List.mem_map.mp hmem with ⟨a, ha, hka⟩
        exact (h2 a ha) (by simp [hka])
      · intro a ha
        rcases List.mem_cons.mp ha with ha | ha
        · subst ha; exact h
        · intro hs
          exact (h2 a ha) (by simp [hs])

theorem dedupByKey_key_nodup {α β : Type} [DecidableEq β] (k : α → β)
    (l : List α) : (List.map k (dedupByKey k l)).Nodup :=
  (dedupByKeyAux_spec k [] l).1

theorem dedupByKey_ne_nil {α β : Type} [DecidableEq β] (k : α → β)
    (x : α) (xs : List α) : dedupByKey k (x :: xs) ≠ [] := by
  simp [dedupByKey, dedupByKeyAux]

/-! ## Index bookkeeping -/

theorem pairwise_fst_lt_enumFrom {α : Type} (i : ℕ) (l : List α) :
    List.Pairwise (fun a b : ℕ × α => a.1 < b.1) (List.enumFrom i l) := by
  induction l generalizing i with
  | nil => simp
  | cons x xs ih =>
    simp only [List.enumFrom, List.pairwise_cons]
    refine ⟨?_, ih (i + 1)⟩
    intro b hb
    exact lt_of_lt_of_le (Nat.lt_succ_self i) (List.le_fst_of_mem_enumFrom hb)

theorem pairwise_fst_lt_enum {α : Type} (l : List α) :
    List.Pairwise (fun a b : ℕ × α => a.1 < b.1) l.enum :=
  pairwise_fst_lt_enumFrom 0 l

/-! ## Lemmas about IEEE binary64 rounding -/

theorem rnei_abs_le (q : ℚ) : |(rnei q : ℚ) - q| ≤ 1 / 2 := by
  have hfl : (⌊q⌋ : ℚ) ≤ q := Int.floor_le q
  have hfu : q < ⌊q⌋ + 1 := Int.lt_floor_add_one q
  unfold rnei
  by_cases h1 : q - ⌊q⌋ < 1 / 2
  · rw [if_pos h1, abs_le]
    constructor <;> push_cast <;> linarith
  · rw [if_neg h1]
    by_cases h2 : 1 / 2 < q - ⌊q⌋
    · rw [if_pos h2, abs_le]
      constructor <;> push_cast <;> linarith
    · rw [if_neg h2]
      by_cases h3 : 2 ∣ ⌊q⌋
      · rw [if_pos h3, abs_le]
        constructor <;> push_cast <;> linarith
      · rw [if_neg h3, abs_le]
        constructor <;> push_cast <;> linarith

theorem rnei_eq_of_abs_lt (q : ℚ) (k : ℤ) (h : |q - k| < 1 / 2) : rnei q = k := by
  rw [abs_lt] at h
  by_cases hk : (k : ℚ) ≤ q
  · have hfl : ⌊q⌋ = k := by
      rw [Int.floor_eq_iff]
      refine ⟨hk, by push_cast; linarith [h.2]⟩
    have hc1 : q - (⌊q⌋ : ℚ) < 1 / 2 := by rw [hfl]; linarith [h.2]
    unfold rnei
    rw [if_pos hc1, hfl]
  · push_neg at hk
    have hfl : ⌊q⌋ = k - 1 := by
      rw [Int.floor_eq_iff]
      constructor <;> push_cast <;> linarith [h.1]
    have hc1 : ¬ q - (⌊q⌋ : ℚ) < 1 / 2 := by
      rw [hfl]; push_cast; linarith [h.1]
    have hc2 : 1 / 2 < q - (⌊q⌋ : ℚ) := by
      rw [hfl]; push_cast; linarith [h.1]
    unfold rnei
    rw [if_neg hc1, if_pos hc2, hfl]
    omega

theorem rnei_nonneg (q : ℚ) (hq : 0 ≤ q) : 0 ≤ rnei q := by
  have hfl : (0:ℤ) ≤ ⌊q⌋ := Int.floor_nonneg.mpr hq
  unfold rnei
  by_cases h1 : q - ⌊q⌋ < 1 / 2
  · rw [if_pos h1]; exact hfl
  · rw [if_neg h1]
    by_cases h2 : 1 / 2 < q - ⌊q⌋
    · rw [if_pos h2]; omega
    · rw [if_neg h2]
      by_cases h3 : 2 ∣ ⌊q⌋
      · rw [if_pos h3]; exact hfl
      · rw [if_neg h3]; omega

/-- The workhorse: if x lies in the binade [2^e, 2^(e+1)) and is within
half an ulp of the grid point k * 2^(e-52), then x rounds there. -/
theorem roundNE_eq (x : ℚ) (e k : ℤ) (h1 : (2:ℚ) ^ e ≤ x)
    (h2 : x < 2 ^ (e + 1)) (hk : |x - k * 2 ^ (e - 52)| < 2 ^ (e - 53)) :
    roundNE x = k * 2 ^ (e - 52) := by
  have hx : 0 < x := lt_of_lt_of_le (by positivity) h1
  have he : Int.log 2 x = e := by
    have hle : e ≤ Int.log 2 x := by
      refine (Int.zpow_le_iff_le_log (by norm_num) hx).mp ?_
      exact_mod_cast h1
    have hlt : Int.log 2 x < e + 1 := by
      refine (Int.lt_zpow_iff_log_lt (by norm_num) hx).mp ?_
      exact_mod_cast h2
    omega
  have hg : (0:ℚ) < 2 ^ (e - 52) := by positivity
  have hq : |x / 2 ^ (e - 52) - k| < 1 / 2 := by
    have hrw : x / 2 ^ (e - 52) - k = (x - k * 2 ^ (e - 52)) / 2 ^ (e - 52) := by
      field_simp
      ring
    rw [hrw, abs_div, abs_of_pos hg, div_lt_iff₀ hg]
    have hhalf : (2:ℚ) ^ (e - 53) = 1 / 2 * 2 ^ (e - 52) := by
      rw [show e - 53 = (e - 52) + (-1 : ℤ) by ring,
        zpow_add₀ (by norm_num : (2:ℚ) ≠ 0), zpow_neg_one]
      ring
    rw [← hhalf]
    exact hk
  unfold roundNE
  rw [if_neg (not_le.mpr hx), he, rnei_eq_of_abs_lt _ k hq]

theorem roundNE_abs_sub (x : ℚ) (hx : 0 < x) :
    |roundNE x - x| ≤ 2 ^ (Int.log 2 x - 53) := by
  unfold roundNE
  rw [if_neg (not_le.mpr hx)]
  have hg : (0:ℚ) < 2 ^ (Int.log 2 x - 52) := by positivity
  have h := rnei_abs_le (x / 2 ^ (Int.log 2 x - 52))
  have h2 : (rnei (x / 2 ^ (Int.log 2 x - 52)) : ℚ) * 2 ^ (Int.log 2 x - 52) - x
      = ((rnei (x / 2 ^ (Int.log 2 x - 52)) : ℚ) - x / 2 ^ (Int.log 2 x - 52)) *
        2 ^ (Int.log 2 x - 52) := by
    field_simp
  rw [h2, abs_mul, abs_of_pos hg]
  have h3 := mul_le_mul_of_nonneg_right h hg.le
  refine h3.trans (le_of_eq ?_)
  rw [show Int.log 2 x - 53 = (Int.log 2 x - 52) + (-1 : ℤ) by ring,
    zpow_add₀ (by norm_num : (2:ℚ) ≠ 0), zpow_neg_one]
  ring

theorem roundNE_nonneg (x : ℚ) : 0 ≤ roundNE x := by
  unfold roundNE
  by_cases hx : x ≤ 0
  · rw [if_pos hx]
  · rw [if_neg hx]
    push_neg at hx
    have hg : (0:ℚ) < 2 ^ (Int.log 2 x - 52) := by positivity
    have := rnei_nonneg (x / 2 ^ (Int.log 2 x - 52)) (by positivity)
    positivity

theorem roundNE_le_mul (x : ℚ) (hx : 0 < x) :
    roundNE x ≤ x * (1 + 2 ^ (-(53:ℤ))) := by
  have h := roundNE_abs_sub x hx
  rw [abs_le] at h
  have h2 : (2:ℚ) ^ (Int.log 2 x - 53) ≤ x * 2 ^ (-(53:ℤ)) := by
    rw [show Int.log 2 x - 53 = Int.log 2 x + -(53:ℤ) by ring,
      zpow_add₀ (by norm_num : (2:ℚ) ≠ 0)]
    have hlog : (2:ℚ) ^ (Int.log 2 x) ≤ x := by
      have := Int.zpow_log_le_self (by norm_num : 1 < 2) hx
      exact_mod_cast this
    have hp : (0:ℚ) < 2 ^ (-(53:ℤ)) := by positivity
    nlinarith
  nlinarith [h.2]

theorem roundNE_ge_mul (x : ℚ) (hx : 0 < x) :
    x * (1 - 2 ^ (-(53:ℤ))) ≤ roundNE x := by
  have h := roundNE_abs_sub x hx
  rw [abs_le] at h
  have h2 : (2:ℚ) ^ (Int.log 2 x - 53) ≤ x * 2 ^ (-(53:ℤ)) := by
    rw [show Int.log 2 x - 53 = Int.log 2 x + -(53:ℤ) by ring,
      zpow_add₀ (by norm_num : (2:ℚ) ≠ 0)]
    have hlog : (2:ℚ) ^ (Int.log 2 x) ≤ x := by
      have := Int.zpow_log_le_self (by norm_num : 1 < 2) hx
      exact_mod_cast this
    have hp : (0:ℚ) < 2 ^ (-(53:ℤ)) := by positivity
    nlinarith
  nlinarith [h.1]

/-- Integers up to 2^53 are representable doubles: converting the int n
to a double is exact in this range. -/
theorem roundNE_natCast (n : ℕ) (hn1 : 1 ≤ n) (hn2 : n ≤ 2 ^ 53) :
    roundNE (n : ℚ) = n := by
  by_cases hbig : n = 2 ^ 53
  · subst hbig
    have hc : ((2 ^ 53 : ℕ) : ℚ) = (2:ℚ) ^ (53:ℕ) := by push_cast; ring
    have h := roundNE_eq ((2:ℚ) ^ (53:ℕ)) 53 (2 ^ 52) (by norm_num) (by norm_num)
      (by norm_num)
    rw [hc, h]
    norm_num
  · have hlt : n < 2 ^ 53 := lt_of_le_of_ne hn2 hbig
    set E := Nat.log 2 n with hE
    have hElo : 2 ^ E ≤ n := Nat.pow_log_le_self 2 (by omega)
    have hEhi : n < 2 ^ (E + 1) := Nat.lt_pow_succ_log_self (by norm_num) n
    have hE52 : E ≤ 52 := by
      have : E < 53 := by
        rw [hE]
        exact Nat.log_lt_of_lt_pow (by omega) hlt
      omega
    have hqlo : (2:ℚ) ^ ((E : ℤ)) ≤ n := by
      rw [zpow_natCast]
      exact_mod_cast hElo
    have hqhi : (n:ℚ) < 2 ^ ((E : ℤ) + 1) := by
      rw [show ((E:ℤ) + 1) = (((E + 1 : ℕ)) : ℤ) by push_cast; ring, zpow_natCast]
      exact_mod_cast hEhi
    have hkg : (((n * 2 ^ (52 - E) : ℕ) : ℤ) : ℚ) * 2 ^ ((E:ℤ) - 52) = n := by
      push_cast
      rw [← zpow_natCast (2:ℚ) (52 - E), mul_assoc,
        ← zpow_add₀ (by norm_num : (2:ℚ) ≠ 0)]
      rw [show (((52 - E : ℕ) : ℤ) + ((E:ℤ) - 52)) = 0 by
        rw [Nat.cast_sub hE52]; ring]
      norm_num
    have h := roundNE_eq (n:ℚ) (E:ℤ) ((n * 2 ^ (52 - E) : ℕ) : ℤ) hqlo hqhi
      (by rw [hkg]; simpa using (by positivity : (0:ℚ) < 2 ^ ((E:ℤ) - 53)))
    rw [h, hkg]

/-- The constant float06 is indeed the IEEE binary64 value nearest to
the decimal literal 0.6. -/
theorem float06_eq_roundNE : float06 = roundNE (3 / 5) := by
  have h := roundNE_eq ((3:ℚ)/5) (-1) 5404319552844595 (by norm_num) (by norm_num)
    (by rw [abs_lt]; constructor <;> norm_num)
  rw [h, float06]
  norm_num

/-- The double computation int(n * 0.6) stays strictly below n for
every positive n: the relative error of two roundings cannot bridge the
gap from 0.6 to 1. -/
theorem collabCountF_lt (n : ℕ) (hn : 1 ≤ n) : collabCountF n < n := by
  have hn0 : (0:ℚ) < n := by exact_mod_cast hn
  have hε : (0:ℚ) < 2 ^ (-(53:ℤ)) := by positivity
  have hε8 : (2:ℚ) ^ (-(53:ℤ)) ≤ 1 / 8 := by norm_num
  have hεpos : (0:ℚ) < 1 - 2 ^ (-(53:ℤ)) := by norm_num
  have h1 : roundNE n ≤ n * (1 + 2 ^ (-(53:ℤ))) := roundNE_le_mul _ hn0
  have h1b : (n:ℚ) * (1 - 2 ^ (-(53:ℤ))) ≤ roundNE n := roundNE_ge_mul _ hn0
  have hfn0 : (0:ℚ) < roundNE n := lt_of_lt_of_le (mul_pos hn0 hεpos) h1b
  have hf06a : (0:ℚ) < float06 := by norm_num [float06]
  have hf06b : float06 ≤ 3 / 5 := by norm_num [float06]
  have hp0 : (0:ℚ) < roundNE (n:ℚ) * float06 := mul_pos hfn0 hf06a
  have h2 : roundNE (roundNE (n:ℚ) * float06) ≤
      (roundNE (n:ℚ) * float06) * (1 + 2 ^ (-(53:ℤ))) := roundNE_le_mul _ hp0
  have hple : roundNE (n:ℚ) * float06 ≤ (n:ℚ) * (1 + 2 ^ (-(53:ℤ))) * (3 / 5) :=
    mul_le_mul h1 hf06b hf06a.le (by positivity)
  have hsc : (1 + (2:ℚ) ^ (-(53:ℤ))) * (3 / 5) * (1 + 2 ^ (-(53:ℤ))) < 1 := by
    nlinarith [mul_le_mul hε8 hε8 hε.le (by norm_num : (0:ℚ) ≤ 1 / 8)]
  have hlt : roundNE (roundNE (n:ℚ) * float06) < n := by
    have hstep : (roundNE (n:ℚ) * float06) * (1 + 2 ^ (-(53:ℤ))) ≤
        (n:ℚ) * ((1 + 2 ^ (-(53:ℤ))) * (3 / 5) * (1 + 2 ^ (-(53:ℤ)))) := by
      have := mul_le_mul_of_nonneg_right hple (by positivity : (0:ℚ) ≤ 1 + 2 ^ (-(53:ℤ)))
      nlinarith [this]
    have hfin : (n:ℚ) * ((1 + (2:ℚ) ^ (-(53:ℤ))) * (3 / 5) * (1 + 2 ^ (-(53:ℤ)))) <
        n * 1 := by
      exact mul_lt_mul_of_pos_left hsc hn0
    calc roundNE (roundNE (n:ℚ) * float06)
        ≤ (roundNE (n:ℚ) * float06) * (1 + 2 ^ (-(53:ℤ))) := h2
      _ ≤ (n:ℚ) * ((1 + 2 ^ (-(53:ℤ))) * (3 / 5) * (1 + 2 ^ (-(53:ℤ)))) := hstep
      _ < n * 1 := hfin
      _ = n := mul_one _
  have hfloor : ⌊roundNE (roundNE (n:ℚ) * float06)⌋ < (n:ℤ) := by
    rw [Int.floor_lt]
    exact_mod_cast hlt
  have := (Int.toNat_lt' (show n ≠ 0 by omega)).mpr hfloor
  simpa [collabCountF] using this

theorem three_mul_mod_five (n : ℕ) (h : ¬ n % 5 = 0) :
    1 ≤ 3 * n % 5 ∧ 3 * n % 5 ≤ 4 := by omega

/-- In the range n ≤ 2^50 the double computation int(n * 0.6) agrees
with the exact mathematical floor of 0.6 * n.  (Outside this range it
can differ; see the counterexample at n = 9007199254740988.) -/
theorem collabCountF_eq (n : ℕ) (hn1 : 1 ≤ n) (hn2 : n ≤ 2 ^ 50) :
    collabCountF n = 3 * n / 5 := by
  have hn0 : (0:ℚ) < n := by exact_mod_cast hn1
  have hfln : roundNE (n:ℚ) = n := roundNE_natCast n hn1 (le_trans hn2 (by norm_num))
  have hcc : collabCountF n = (⌊roundNE ((n:ℚ) * float06)⌋).toNat := by
    rw [collabCountF, hfln]
  have hnq : (n:ℚ) ≤ 2 ^ (50:ℕ) := by exact_mod_cast hn2
  have h06pos : (0:ℚ) < float06 := by norm_num [float06]
  have hppos : (0:ℚ) < (n:ℚ) * float06 := mul_pos hn0 h06pos
  have hplt : (n:ℚ) * float06 < (2:ℚ) ^ (50:ℤ) := by
    have h1 : (n:ℚ) * float06 ≤ (2:ℚ) ^ (50:ℕ) * float06 :=
      mul_le_mul_of_nonneg_right hnq h06pos.le
    have h2 : (2:ℚ) ^ (50:ℕ) * float06 < (2:ℚ) ^ (50:ℤ) := by
      rw [float06]; norm_num
    exact lt_of_le_of_lt h1 h2
  obtain ⟨e, helo, hehi⟩ : ∃ e : ℤ, (2:ℚ) ^ e ≤ (n:ℚ) * float06 ∧
      (n:ℚ) * float06 < 2 ^ (e + 1) := by
    refine ⟨Int.log 2 ((n:ℚ) * float06), ?_, ?_⟩
    · have := Int.zpow_log_le_self (b := 2) (R := ℚ) (by norm_num) hppos
      exact_mod_cast this
    · have := Int.lt_zpow_succ_log_self (b := 2) (R := ℚ) (by norm_num)
        ((n:ℚ) * float06)
      exact_mod_cast this
  have he49 : e ≤ 49 := by
    have : (2:ℚ) ^ e < 2 ^ (50:ℤ) := lt_of_le_of_lt helo hplt
    have := (zpow_lt_zpow_iff_right₀ (by norm_num : (1:ℚ) < 2)).mp this
    omega
  have hhalf : (2:ℚ) ^ (e - 53) ≤ 1 / 16 := by
    have h1 : (2:ℚ) ^ (e - 53) ≤ 2 ^ (-(4):ℤ) :=
      zpow_le_zpow_right₀ (by norm_num) (by omega)
    have h2 : (2:ℚ) ^ (-(4):ℤ) = 1 / 16 := by norm_num
    rw [← h2]; exact h1
  by_cases h5 : n % 5 = 0
  · -- n = 5m: the rounded product lands exactly on the integer 3m.
    obtain ⟨m, hm⟩ : ∃ m, n = 5 * m := ⟨n / 5, by omega⟩
    have hm1 : 1 ≤ m := by omega
    have hmq1 : (1:ℚ) ≤ m := by exact_mod_cast hm1
    have hm50 : m ≤ 2 ^ 50 := le_trans (by omega : m ≤ n) hn2
    have hm53 : (m:ℚ) < 2 ^ (53:ℕ) := by
      have : m < 2 ^ 53 := lt_of_le_of_lt hm50 (by norm_num)
      exact_mod_cast this
    have hpm : (n:ℚ) * float06 = ((3 * m : ℕ) : ℚ) - m / 2 ^ (53:ℕ) := by
      rw [float06]; subst hm; push_cast; ring
    have hp2 : (2:ℚ) ^ (1:ℤ) ≤ (n:ℚ) * float06 := by
      rw [hpm]
      push_cast
      have hdiv : (m:ℚ) / 2 ^ (53:ℕ) < 1 := by
        rw [div_lt_one (by positivity)]
        exact hm53
      nlinarith
    have he1 : 1 ≤ e := by
      have h1 : (2:ℚ) ^ (1:ℤ) < 2 ^ (e + 1) := lt_of_le_of_lt hp2 hehi
      have := (zpow_lt_zpow_iff_right₀ (by norm_num : (1:ℚ) < 2)).mp h1
      omega
    -- integrality: 3m does not exceed the top of the binade
    have hE1 : (((e + 1).toNat : ℕ) : ℤ) = e + 1 := Int.toNat_of_nonneg (by omega)
    have hcast1 : (2:ℚ) ^ (e + 1) = ((2 ^ (e + 1).toNat : ℕ) : ℚ) := by
      conv_lhs => rw [← hE1]
      rw [zpow_natCast]
      norm_cast
    have h3mlt : ((3 * m : ℕ) : ℚ) < ((2 ^ (e + 1).toNat : ℕ) : ℚ) + 1 := by
      rw [← hcast1]
      have hdiv : (0:ℚ) ≤ (m:ℚ) / 2 ^ (53:ℕ) := by positivity
      have hdiv1 : (m:ℚ) / 2 ^ (53:ℕ) < 1 := by
        rw [div_lt_one (by positivity)]; exact hm53
      rw [hpm] at hehi
      push_cast at hehi ⊢
      linarith
    have h3mle : ((3 * m : ℕ) : ℚ) ≤ (2:ℚ) ^ (e + 1) := by
      rw [hcast1]
      have hn1' : (3 * m : ℕ) < 2 ^ (e + 1).toNat + 1 := by exact_mod_cast h3mlt
      have : (3 * m : ℕ) ≤ 2 ^ (e + 1).toNat := by omega
      exact_mod_cast this
    have h2e1 : (2:ℚ) ^ (e + 1) = 2 * 2 ^ e := by
      rw [zpow_add₀ (by norm_num : (2:ℚ) ≠ 0)]
      ring
    have hm2e : (m:ℚ) < 2 ^ e := by
      rw [h2e1] at h3mle
      push_cast at h3mle
      nlinarith
    -- the target grid point
    have he52 : e.toNat ≤ 52 := by omega
    have heE : ((e.toNat : ℕ) : ℤ) = e := Int.toNat_of_nonneg (by omega)
    have hkg : (((3 * m * 2 ^ (52 - e.toNat) : ℕ) : ℤ) : ℚ) * 2 ^ (e - 52) =
        ((3 * m : ℕ) : ℚ) := by
      push_cast
      rw [← zpow_natCast (2:ℚ) (52 - e.toNat), mul_assoc,
        ← zpow_add₀ (by norm_num : (2:ℚ) ≠ 0)]
      rw [show (((52 - e.toNat : ℕ) : ℤ) + (e - 52)) = 0 by
        rw [Nat.cast_sub he52, heE]; ring]
      norm_num
    have hgap : |(n:ℚ) * float06 - (((3 * m * 2 ^ (52 - e.toNat) : ℕ) : ℤ) : ℚ) *
        2 ^ (e - 52)| < 2 ^ (e - 53) := by
      rw [hkg, hpm]
      have h2e53 : (2:ℚ) ^ (e - 53) = 2 ^ e / 2 ^ (53:ℕ) := by
        rw [show e - 53 = e + -(53:ℤ) by ring, zpow_add₀ (by norm_num : (2:ℚ) ≠ 0)]
        norm_num
        ring
      have habs : ((3 * m : ℕ) : ℚ) - (m:ℚ) / 2 ^ (53:ℕ) - ((3 * m : ℕ) : ℚ) =
          -((m:ℚ) / 2 ^ (53:ℕ)) := by ring
      rw [habs, abs_neg, abs_of_nonneg (by positivity)]
      rw [h2e53]
      gcongr
    have hround := roundNE_eq ((n:ℚ) * float06) e
      ((3 * m * 2 ^ (52 - e.toNat) : ℕ) : ℤ) helo hehi hgap
    rw [hcc, hround, hkg]
    have : ⌊((3 * m : ℕ) : ℚ)⌋ = ((3 * m : ℕ) : ℤ) := Int.floor_natCast _
    rw [this]
    simp
    omega
  · -- n not divisible by 5: the true value is at least 0.2 away from
    -- the integers on both sides, the total rounding error is below 0.2.
    have habs := roundNE_abs_sub ((n:ℚ) * float06) hppos
    have heabs : |roundNE ((n:ℚ) * float06) - (n:ℚ) * float06| ≤ 1 / 16 := by
      refine le_trans habs ?_
      have he' : Int.log 2 ((n:ℚ) * float06) = e := by
        have h1 : e ≤ Int.log 2 ((n:ℚ) * float06) :=
          (Int.zpow_le_iff_le_log (by norm_num) hppos).mp (by exact_mod_cast helo)
        have h2 : Int.log 2 ((n:ℚ) * float06) < e + 1 :=
          (Int.lt_zpow_iff_log_lt (by norm_num) hppos).mp (by exact_mod_cast hehi)
        omega
      rw [he']
      exact hhalf
    have hpval : (n:ℚ) * float06 = 3 * (n:ℚ) / 5 - (n:ℚ) / (5 * 2 ^ (53:ℕ)) := by
      rw [float06]; ring
    have hdev : (n:ℚ) / (5 * 2 ^ (53:ℕ)) ≤ 1 / 40 := by
      rw [div_le_iff₀ (by positivity)]
      calc (n:ℚ) ≤ 2 ^ (50:ℕ) := hnq
        _ ≤ 1 / 40 * (5 * 2 ^ (53:ℕ)) := by norm_num
    have hdev0 : (0:ℚ) ≤ (n:ℚ) / (5 * 2 ^ (53:ℕ)) := by positivity
    have hF : 3 * n = 5 * (3 * n / 5) + 3 * n % 5 := (Nat.div_add_mod _ _).symm
    have hs1 : 1 ≤ 3 * n % 5 := (three_mul_mod_five n h5).1
    have hs4 : 3 * n % 5 ≤ 4 := (three_mul_mod_five n h5).2
    have hFq : (3:ℚ) * n = 5 * ((3 * n / 5 : ℕ) : ℚ) + ((3 * n % 5 : ℕ) : ℚ) := by
      exact_mod_cast congrArg (fun x : ℕ => (x : ℚ)) hF
    have hsq1 : (1:ℚ) ≤ ((3 * n % 5 : ℕ) : ℚ) := by exact_mod_cast hs1
    have hsq4 : ((3 * n % 5 : ℕ) : ℚ) ≤ 4 := by exact_mod_cast hs4
    rw [abs_le] at heabs
    have hlow : ((3 * n / 5 : ℕ) : ℚ) < roundNE ((n:ℚ) * float06) := by
      linarith [heabs.1, hpval, hFq, hdev, hsq1]
    have hhigh : roundNE ((n:ℚ) * float06) < ((3 * n / 5 : ℕ) : ℚ) + 1 := by
      linarith [heabs.2, hpval, hFq, hdev0, hsq4]
    have hfl : ⌊roundNE ((n:ℚ) * float06)⌋ = ((3 * n / 5 : ℕ) : ℤ) := by
      rw [Int.floor_eq_iff]
      constructor
      · push_cast
        exact hlow.le
      · push_cast
        exact hhigh
    rw [hcc, hfl]
    exact Int.toNat_natCast _

/-! ## Lemmas about SimilarityIndex -/

theorem resolveIdx_lt_length {cat : List Place} {q : String} {r : ℕ}
    (h : resolveIdx cat q = some r) : r < cat.length :=
  (List.findIdx?_eq_some_iff_findIdx_eq.mp h).1

theorem length_simScores (N : ℕ) (f : ℕ → ℚ) : (simScores N f).length = N := by
  simp [simScores]

theorem contentIndices_length (N : ℕ) (f : ℕ → ℚ) (n : ℕ) :
    (contentIndices N f n).length = min n (N - 1) := by
  simp [contentIndices, List.length_take, List.length_drop, length_sortByDesc,
    length_simScores]

theorem simLE_total : ∀ a b : ℕ × ℚ, simLE a b = true ∨ simLE b a = true := by
  intro a b
  simp only [simLE, decide_eq_true_eq]
  exact le_total _ _

theorem simLE_trans : ∀ a b c : ℕ × ℚ, simLE a b = true → simLE b c = true →
    simLE a c = true := by
  intro a b c
  simp only [simLE, decide_eq_true_eq]
  exact le_trans

/-- Claim C6: when the lower-cased query is a substring of no row name
(case-insensitive), content_based_recommendations does not fail and
returns exactly the first n rows of the catalog in catalog order. -/
theorem similar_to_fallback (cat : List Place) (sim : ℕ → ℕ → ℚ) (q : String)
    (n : ℕ)
    (h : ∀ p ∈ cat, containsChars (lowerChars p.name) (lowerChars q) = false) :
    contentBasedRecommendations cat sim q n = cat.take n := by
  have hr : resolveIdx cat q = none := List.findIdx?_eq_none_iff.mpr h
  simp [contentBasedRecommendations, hr]

/-- Witness for claim C6 at a concrete no-match query. -/
theorem similar_to_fallback_witness :
    (∀ p ∈ scenarioCatalog,
      containsChars (lowerChars p.name) (lowerChars "xyzzy") = false) ∧
    contentBasedRecommendations scenarioCatalog (fun _ _ => 0) "xyzzy" 2 =
      scenarioCatalog.take 2 :=
  ⟨by decide, similar_to_fallback _ _ _ _ (by decide)⟩

/-- Claim C10: when the query resolves, similar_to(x, n) returns
exactly min(n, N-1) rows, where N is the catalog size: asking for more
neighbours than exist truncates silently instead of failing. -/
theorem similar_to_length (cat : List Place) (sim : ℕ → ℕ → ℚ) (q : String)
    (n r : ℕ) (hr : resolveIdx cat q = some r) (hn : 1 ≤ n) :
    (contentBasedRecommendations cat sim q n).length = min n (cat.length - 1) := by
  simp [contentBasedRecommendations, hr, List.length_map, contentIndices_length]

/-- Witness for claim C10: 5 neighbours requested from the three-row
catalog, 2 returned. -/
theorem similar_to_length_witness :
    resolveIdx scenarioCatalog "taj" = some 0 ∧ (1:ℕ) ≤ 5 ∧
    (contentBasedRecommendations scenarioCatalog (fun _ _ => 0) "taj" 5).length =
      min 5 (scenarioCatalog.length - 1) :=
  ⟨by decide, by decide,
    similar_to_length scenarioCatalog (fun _ _ => 0) "taj" 5 0 (by decide) (by decide)⟩

/-- Claim C1 (amended): similar_to(x, n) never contains the resolved
row, provided the resolved row similarity to itself strictly exceeds
its similarity to every other row (in particular whenever no other row
has a text vector parallel to it).  Without that proviso the code can
return the resolved row: it drops only the head of the stable
descending sort, and an earlier row tied at the top takes that place
(see the counterexample).  Rows are identified by catalog index: the
returned sequence consists of the rows at the indices contentIndices,
and the resolved index is not among them. -/
theorem similar_to_excludes_resolved (cat : List Place) (sim : ℕ → ℕ → ℚ)
    (q : String) (n r : ℕ) (hr : resolveIdx cat q = some r)
    (hmax : ∀ j < cat.length, j ≠ r → sim r j < sim r r) :
    r ∉ contentIndices cat.length (sim r) n ∧
    contentBasedRecommendations cat sim q n =
      (contentIndices cat.length (sim r) n).map (fun i => cat.getD i default) := by
  constructor
  · have hperm := sortByDesc_perm simLE (simScores cat.length (sim r))
    have hpair := sortByDesc_pairwise simLE_total simLE_trans
      (simScores cat.length (sim r))
    have hrN : r < cat.length := resolveIdx_lt_length hr
    have hmem : (r, sim r r) ∈ sortByDesc simLE (simScores cat.length (sim r)) := by
      rw [hperm.mem_iff]
      simp only [simScores, List.mem_map, List.mem_range]
      exact ⟨r, hrN, rfl⟩
    have hnodup : (List.map Prod.fst
        (sortByDesc simLE (simScores cat.length (sim r)))).Nodup := by
      refine ((hperm.map Prod.fst).nodup_iff).mpr ?_
      have hmap : List.map Prod.fst (simScores cat.length (sim r)) =
          List.range cat.length := by
        rw [simScores, List.map_map]
        have hfn : (Prod.fst ∘ fun j : ℕ => (j, sim r j)) = fun j : ℕ => j := rfl
        rw [hfn]
        exact List.map_id' _
      rw [hmap]
      exact List.nodup_range _
    cases hS : sortByDesc simLE (simScores cat.length (sim r)) with
    | nil =>
      rw [hS] at hmem
      exact absurd hmem (List.not_mem_nil _)
    | cons s t =>
      have hs1 : s.1 = r := by
        have hsmem : s ∈ simScores cat.length (sim r) := by
          rw [← hperm.mem_iff, hS]
          exact List.mem_cons_self s t
        simp only [simScores, List.mem_map, List.mem_range] at hsmem
        obtain ⟨j, hj, hsj⟩ := hsmem
        by_contra hne
        have hjr : j ≠ r := by
          intro hjr
          apply hne
          rw [← hsj, hjr]
        have hlt := hmax j hj hjr
        have hmem2 : (r, sim r r) ∈ s :: t := by rw [← hS]; exact hmem
        rcases List.mem_cons.mp hmem2 with heq | hmem3
        · apply hne
          rw [← heq]
        · have hple := (List.pairwise_cons.mp (by rw [← hS] at *; exact hS ▸ hpair)).1
          have := hple (r, sim r r) hmem3
          simp only [simLE, decide_eq_true_eq] at this
          rw [← hsj] at this
          exact absurd this (not_le.mpr hlt)
      intro hmemIdx
      rw [contentIndices, hS] at hmemIdx
      simp only [List.drop_one, List.tail_cons] at hmemIdx
      have hrt : r ∈ List.map Prod.fst t := by
        have hsub : ((t.take n).map Prod.fst).Sublist (t.map Prod.fst) :=
          (List.take_sublist _ _).map _
        exact hsub.subset hmemIdx
      rw [hS, List.map_cons, List.nodup_cons] at hnodup
      exact hnodup.1 (hs1 ▸ hrt)
  · simp [contentBasedRecommendations, hr]

/-- Witness for the amended claim C1: a two-row catalog with a strictly
dominating diagonal similarity. -/
theorem similar_to_excludes_resolved_witness :
    resolveIdx wCatalog "alpha" = some 0 ∧
    (∀ j < wCatalog.length, j ≠ 0 → wSim 0 j < wSim 0 0) ∧
    0 ∉ contentIndices wCatalog.length (wSim 0) 5 :=
  ⟨by decide, by decide, (similar_to_excludes_resolved wCatalog wSim "alpha" 5 0
    (by decide) (by decide)).1⟩

/-- Claim C1 counterexample: on cexCatalog the query fort resolves to
row 1 (row 0 does not match), the two rows have identical combined_text
(so every entry of the cosine row of the resolved row is one and the
same value and the constant matrix cexSim realizes the comparisons the
code makes), and similar_to(fort, 1) returns exactly the resolved row
itself. -/
theorem similar_to_contains_resolved_cex :
    resolveIdx cexCatalog "fort" = some 1 ∧
    combinedText cexPlace0 = combinedText cexPlace1 ∧
    contentBasedRecommendations cexCatalog cexSim "fort" 1 = [cexPlace1] := by
  refine ⟨by decide, by decide, by decide⟩

/-! ## Claim C5: the 60/40 budget split -/

/-- Claim C5 counterexample: at n = 9007199254740988 = 2^53 - 4, the
exact mathematical floor of 0.6 * n is 5404319552844592 (the true
product is 5404319552844592.8), but the code computes
int(n * 0.6) = 5404319552844593: the double nearest to 0.6 is slightly
below 0.6, and the correctly rounded product lands on the next integer
up.  So collab_count is not the exact floor for every n >= 1. -/
theorem collab_count_floor_cex :
    collabCountF 9007199254740988 = 5404319552844593 ∧
    3 * 9007199254740988 / 5 = 5404319552844592 ∧
    ¬ collabCountF 9007199254740988 = 3 * 9007199254740988 / 5 := by
  have hfln : roundNE ((9007199254740988 : ℕ) : ℚ) = ((9007199254740988 : ℕ) : ℚ) :=
    roundNE_natCast 9007199254740988 (by norm_num) (by norm_num)
  have hround := roundNE_eq (((9007199254740988 : ℕ) : ℚ) * float06) 52
    5404319552844593 (by rw [float06]; push_cast; norm_num)
    (by rw [float06]; push_cast; norm_num)
    (by rw [float06, abs_lt]; constructor <;> · push_cast; norm_num)
  have h1 : collabCountF 9007199254740988 = 5404319552844593 := by
    rw [collabCountF, hfln, hround]
    rw [show (52:ℤ) - 52 = 0 by norm_num, zpow_zero, mul_one, Int.floor_intCast]
    rfl
  have h2 : 3 * 9007199254740988 / 5 = 5404319552844592 := by norm_num
  exact ⟨h1, h2, by rw [h1, h2]; norm_num⟩

/-- Claim C5 (amended): for every n with 1 <= n <= 2^50, collab_count =
int(n * 0.6) equals the exact mathematical floor of 0.6 * n (written
3 * n / 5 in natural division), content_count = n - collab_count, and
the popularity ranker is asked for exactly collab_count rows.  The
range restriction is forced by the counterexample at
n = 9007199254740988, where the double computation exceeds the exact
floor by one. -/
theorem collab_count_floor_amended (n : ℕ) (h1 : 1 ≤ n) (h2 : n ≤ 2 ^ 50) :
    collabCountF n = 3 * n / 5 ∧ contentCountF n = n - 3 * n / 5 ∧
    ∀ cat : List Place, collaborativeRecommendations cat (collabCountF n) =
      nlargestPop (3 * n / 5) cat := by
  have hc := collabCountF_eq n h1 h2
  refine ⟨hc, ?_, ?_⟩
  · rw [contentCountF, hc]
  · intro cat
    rw [hc]
    rfl

/-- Witness for the amended claim C5 at n = 5. -/
theorem collab_count_floor_witness :
    (1:ℕ) ≤ 5 ∧ (5:ℕ) ≤ 2 ^ 50 ∧ collabCountF 5 = 3 ∧ contentCountF 5 = 2 := by
  have h := collab_count_floor_amended 5 (by norm_num) (by norm_num)
  have h1 := h.1
  have h2 := h.2.1
  norm_num at h1 h2
  exact ⟨by norm_num, by norm_num, h1, h2⟩

/-! ## Lemmas about PopularityRanker -/

theorem popLE_total : ∀ a b : Place, popLE a b = true ∨ popLE b a = true := by
  intro a b
  simp only [popLE, decide_eq_true_eq]
  exact le_total _ _

theorem popLE_trans : ∀ a b c : Place, popLE a b = true → popLE b c = true →
    popLE a c = true := by
  intro a b c
  simp only [popLE, decide_eq_true_eq]
  exact le_trans

/-- On index-increasing pairs, the spec comparator (popularity then
index) agrees with the plain popularity comparator. -/
theorem popLE3_agree : ∀ x y : ℕ × Place, x.1 < y.1 →
    popLE3 y x = popLE y.2 x.2 := by
  intro x y hxy
  simp only [popLE3, popLE]
  rw [decide_eq_decide]
  constructor
  · rintro (h | ⟨heq, _⟩)
    · exact h.le
    · exact le_of_eq heq
  · intro h
    rcases lt_or_eq_of_le h with h | h
    · exact Or.inl h
    · exact Or.inr ⟨h, le_of_lt hxy⟩

theorem popB_lt_popC : popularityScore placeB < popularityScore placeC := by
  have hpow : (31:ℝ) ^ (15:ℕ) < (41:ℝ) ^ (14:ℕ) := by norm_num
  have hlog := Real.log_lt_log (by positivity) hpow
  rw [Real.log_pow, Real.log_pow] at hlog
  have hB : popularityScore placeB = (9 / 2 : ℝ) * Real.log 31 := by
    show ((9 / 2 : ℚ) : ℝ) * Real.log (1 + ((30 : ℚ) : ℝ)) = _
    norm_num
  have hC : popularityScore placeC = (21 / 5 : ℝ) * Real.log 41 := by
    show ((21 / 5 : ℚ) : ℝ) * Real.log (1 + ((40 : ℚ) : ℝ)) = _
    norm_num
  rw [hB, hC]
  push_cast at hlog
  linarith

theorem popC_lt_popA : popularityScore placeC < popularityScore placeA := by
  have hpow : (41:ℝ) ^ (7:ℕ) < (51:ℝ) ^ (8:ℕ) := by norm_num
  have hlog := Real.log_lt_log (by positivity) hpow
  rw [Real.log_pow, Real.log_pow] at hlog
  have hC : popularityScore placeC = (21 / 5 : ℝ) * Real.log 41 := by
    show ((21 / 5 : ℚ) : ℝ) * Real.log (1 + ((40 : ℚ) : ℝ)) = _
    norm_num
  have hA : popularityScore placeA = (24 / 5 : ℝ) * Real.log 51 := by
    show ((24 / 5 : ℚ) : ℝ) * Real.log (1 + ((50 : ℚ) : ℝ)) = _
    norm_num
  rw [hC, hA]
  push_cast at hlog
  linarith

theorem sort_scenario : sortByDesc popLE scenarioCatalog =
    [placeA, placeC, placeB] := by
  have hCB : popLE placeC placeB = false := by
    simp only [popLE]
    exact decide_eq_false (not_le.mpr popB_lt_popC)
  have hCA : popLE placeC placeA = true := by
    simp only [popLE]
    exact decide_eq_true popC_lt_popA.le
  simp [scenarioCatalog, sortByDesc, insertByDesc, hCB, hCA]

/-- Claim C7: top(n) returns the rows sorted non-increasing by
popularity_score with ties broken by ascending catalog order, truncated
to the first n: it equals the spec-side topSpec for every catalog and
n, its output is pairwise sorted by popularity, and on the three-row
scenario catalog top(2) = [A, C] (because 4.8 ln 51 > 4.2 ln 41 >
4.5 ln 31, which reduce to the integer comparisons 51^8 > 41^7 and
41^14 > 31^15). -/
theorem popularity_top_ordering :
    (∀ (cat : List Place) (n : ℕ),
      collaborativeRecommendations cat n = topSpec n cat) ∧
    (∀ (cat : List Place) (n : ℕ), List.Pairwise
      (fun a b => popularityScore b ≤ popularityScore a)
      (collaborativeRecommendations cat n)) ∧
    collaborativeRecommendations scenarioCatalog 2 = [placeA, placeC] := by
  refine ⟨?_, ?_, ?_⟩
  · intro cat n
    have hst := sortByDesc_map_snd popLE popLE3 popLE3_agree cat.enum
      (pairwise_fst_lt_enum cat)
    rw [List.enum_map_snd] at hst
    rw [collaborativeRecommendations, nlargestPop, topSpec, hst]
  · intro cat n
    have hp := sortByDesc_pairwise popLE_total popLE_trans cat
    have hp2 : List.Pairwise (fun a b => popularityScore b ≤ popularityScore a)
        (sortByDesc popLE cat) := by
      refine hp.imp ?_
      intro a b hab
      simpa [popLE, decide_eq_true_eq] using hab
    exact hp2.sublist (List.take_sublist _ _)
  · rw [collaborativeRecommendations, nlargestPop, sort_scenario]
    rfl

/-! ## Lemmas about SearchMatcher -/

theorem searchLE_total (ql : List Char) : ∀ a b : Place,
    searchLE ql a b = true ∨ searchLE ql b a = true := by
  intro a b
  simp only [searchLE, decide_eq_true_eq]
  rcases lt_trichotomy (relevanceScore ql a) (relevanceScore ql b) with h | h | h
  · exact Or.inl (Or.inl h)
  · rcases le_total (popularityScore a) (popularityScore b) with hp | hp
    · exact Or.inl (Or.inr ⟨h, hp⟩)
    · exact Or.inr (Or.inr ⟨h.symm, hp⟩)
  · exact Or.inr (Or.inl h)

theorem searchLE_trans (ql : List Char) : ∀ a b c : Place,
    searchLE ql a b = true → searchLE ql b c = true → searchLE ql a c = true := by
  intro a b c
  simp only [searchLE, decide_eq_true_eq]
  rintro (hab | ⟨hab, hab2⟩) (hbc | ⟨hbc, hbc2⟩)
  · exact Or.inl (lt_trans hab hbc)
  · exact Or.inl (hbc ▸ hab)
  · exact Or.inl (hab ▸ hbc)
  · exact Or.inr ⟨hab.trans hbc, hab2.trans hbc2⟩

/-- On index-increasing pairs, the spec comparator (relevance,
popularity, index) agrees with the two-key comparator of the code. -/
theorem searchLE3_agree (ql : List Char) : ∀ x y : ℕ × Place, x.1 < y.1 →
    searchLE3 ql y x = searchLE ql y.2 x.2 := by
  intro x y hxy
  simp only [searchLE3, searchLE]
  rw [decide_eq_decide]
  constructor
  · rintro (h | ⟨heq, hp | ⟨hpeq, _⟩⟩)
    · exact Or.inl h
    · exact Or.inr ⟨heq, hp.le⟩
    · exact Or.inr ⟨heq, le_of_eq hpeq⟩
  · rintro (h | ⟨heq, hp⟩)
    · exact Or.inl h
    · rcases lt_or_eq_of_le hp with hp | hp
      · exact Or.inr ⟨heq, Or.inl hp⟩
      · exact Or.inr ⟨heq, Or.inr ⟨hp, le_of_lt hxy⟩⟩

theorem filter_enum_map_snd {α : Type} (p : α → Bool) (l : List α) :
    List.map Prod.snd (l.enum.filter (fun ia => p ia.2)) = l.filter p := by
  have hfn : (fun ia : ℕ × α => p ia.2) = (p ∘ Prod.snd) := rfl
  rw [hfn, ← List.filter_map, List.enum_map_snd]

/-- Claim C3: for every query and n, search(query, n) consists of the
qualifying rows sorted by relevance_score descending, then
popularity_score descending, remaining ties broken by ascending catalog
order, truncated to the first n: the code pipeline (stable two-key
sort, app.py line 170) equals the spec-side searchPlacesSpec for every
input. -/
theorem search_matches_spec (cat : List Place) (query : String) (n : ℕ) :
    searchPlaces cat query n = searchPlacesSpec cat query n := by
  simp only [searchPlaces, searchPlacesSpec]
  have hpf : List.Pairwise (fun a b : ℕ × Place => a.1 < b.1)
      (cat.enum.filter (fun ia => qualifies (lowerChars query) ia.2)) :=
    (pairwise_fst_lt_enum cat).sublist (List.filter_sublist _)
  have hsnd := sortByDesc_map_snd (searchLE (lowerChars query))
    (searchLE3 (lowerChars query)) (searchLE3_agree (lowerChars query))
    (cat.enum.filter (fun ia => qualifies (lowerChars query) ia.2)) hpf
  have hbridge := filter_enum_map_snd (qualifies (lowerChars query)) cat
  rw [hsnd, hbridge]
  by_cases he : (cat.filter (qualifies (lowerChars query))).isEmpty
  · rw [if_pos he]
    rw [List.isEmpty_iff] at he
    rw [he]
    simp [sortByDesc]
  · rw [if_neg he]

/-- Claim C4 counterexample: on the scenario catalog the computed
relevance score of row B for the query delhi is 19, not 11: B has
city = Delhi and state = Delhi, so it collects the exact-city bonus 8,
the exact-state bonus 6, the partial-city bonus 3 and the partial-state
bonus 2. -/
theorem search_delhi_relevance_cex :
    relevanceScore (lowerChars "delhi") placeB = 19 ∧
    ¬ relevanceScore (lowerChars "delhi") placeB = 11 :=
  ⟨by decide, by decide⟩

/-- Claim C4 (amended): search(delhi) over the scenario catalog returns
exactly the single row B, and B's computed relevance score is 19 =
8 (exact city) + 6 (exact state) + 3 (partial city) + 2 (partial
state); exact and partial bonuses for the same field are both added,
and the state field of B also matches. -/
theorem search_delhi_scenario_amended :
    searchPlaces scenarioCatalog "delhi" 20 = [placeB] ∧
    relevanceScore (lowerChars "delhi") placeB = 8 + 6 + 3 + 2 := by
  constructor
  · have hf : scenarioCatalog.filter (qualifies (lowerChars "delhi")) =
        [placeB] := by rfl
    simp only [searchPlaces]
    rw [hf]
    simp [sortByDesc, insertByDesc]
  · decide

/-! ## Claim C8: autocomplete case sensitivity -/

/-- Claim C8: suggest matches name, city and state by case-sensitive
substring containment: whenever the stripped query occurs case-exactly
in none of the three fields of any row, the result is empty; on the
scenario catalog suggest(go) is empty although Goa matches up to case,
while the case-correct suggest(Go) returns the name suggestion for Goa
Beach followed by the state suggestion for Goa. -/
theorem autocomplete_case_sensitive :
    (∀ (cat : List Place) (query : String) (k : ℕ),
      (∀ p ∈ cat, containsChars p.name.data (trimChars query.data) = false ∧
        containsChars p.city.data (trimChars query.data) = false ∧
        containsChars p.state.data (trimChars query.data) = false) →
      getAutocompleteSuggestions cat query k = []) ∧
    getAutocompleteSuggestions scenarioCatalog "go" 8 = [] ∧
    getAutocompleteSuggestions scenarioCatalog "Go" 8 =
      [Suggestion.mk "name" "Goa Beach" "Panaji, Goa" (21 / 5) 100,
       Suggestion.mk "state" "Goa" "State" (21 / 5) 25] := by
  refine ⟨?_, by rfl, by rfl⟩
  intro cat query k h
  simp only [getAutocompleteSuggestions]
  by_cases hlen : (trimChars query.data).length < 2
  · rw [if_pos hlen]
  · rw [if_neg hlen]
    have hname : cat.filter
        (fun p => containsChars p.name.data (trimChars query.data)) = [] :=
      List.filter_eq_nil_iff.mpr (fun p hp => by simp [(h p hp).1])
    have hcity : cat.filter
        (fun p => containsChars p.city.data (trimChars query.data)) = [] :=
      List.filter_eq_nil_iff.mpr (fun p hp => by simp [(h p hp).2.1])
    have hstate : cat.filter
        (fun p => containsChars p.state.data (trimChars query.data)) = [] :=
      List.filter_eq_nil_iff.mpr (fun p hp => by simp [(h p hp).2.2])
    rw [hname, hcity, hstate]
    simp [dedupByKey, dedupByKeyAux, sortByDesc]

/-- Witness for the general part of claim C8 at a query occurring
nowhere. -/
theorem autocomplete_case_sensitive_witness :
    (∀ p ∈ scenarioCatalog,
      containsChars p.name.data (trimChars "zz".data) = false ∧
      containsChars p.city.data (trimChars "zz".data) = false ∧
      containsChars p.state.data (trimChars "zz".data) = false) ∧
    getAutocompleteSuggestions scenarioCatalog "zz" 8 = [] :=
  ⟨by decide, autocomplete_case_sensitive.1 scenarioCatalog "zz" 8 (by decide)⟩

/-! ## Lemmas about HybridRecommender -/

theorem mem_nlargestPop {p : Place} {n : ℕ} {l : List Place}
    (h : p ∈ nlargestPop n l) : p ∈ l :=
  mem_sortByDesc.mp ((List.take_sublist _ _).subset h)

theorem length_nlargestPop (n : ℕ) (l : List Place) :
    (nlargestPop n l).length = min n l.length := by
  simp [nlargestPop, List.length_take, length_sortByDesc]

theorem nodup_map_nlargestPop {f : Place → String} {n : ℕ} {l : List Place}
    (h : (l.map f).Nodup) : ((nlargestPop n l).map f).Nodup := by
  have hperm := (sortByDesc_perm popLE l).map f
  have hsorted : ((sortByDesc popLE l).map f).Nodup := hperm.nodup_iff.mpr h
  have hmt : ((nlargestPop n l).map f) = ((sortByDesc popLE l).map f).take n := by
    simp [nlargestPop, List.map_take]
  rw [hmt]
  exact (List.take_sublist _ _).nodup hsorted

theorem dedupByKey_eq_nil_iff {α β : Type} [DecidableEq β] (k : α → β)
    (l : List α) : dedupByKey k l = [] ↔ l = [] := by
  cases l with
  | nil => simp [dedupByKey, dedupByKeyAux]
  | cons x xs =>
    constructor
    · intro h
      exact absurd h (dedupByKey_ne_nil k x xs)
    · intro h
      exact absurd h (List.cons_ne_nil x xs)

theorem nodup_map_of_length_le_one {α β : Type} {f : α → β} {l : List α}
    (h : l.length ≤ 1) : (l.map f).Nodup := by
  cases l with
  | nil => simp
  | cons x xs =>
    cases xs with
    | nil => simp
    | cons y ys =>
      exfalso
      simp [List.length_cons] at h

theorem resolveIdx_of_mem {cat : List Place} {p : Place} (hp : p ∈ cat) :
    ∃ r, resolveIdx cat p.name = some r := by
  cases hres : resolveIdx cat p.name with
  | some r => exact ⟨r, rfl⟩
  | none =>
    have hfalse := List.findIdx?_eq_none_iff.mp hres p hp
    simp [containsChars, List.infix_rfl] at hfalse

theorem contentBased_ne_nil {cat : List Place} {sim : ℕ → ℕ → ℚ} {p : Place}
    (hp : p ∈ cat) (hN : 2 ≤ cat.length) :
    contentBasedRecommendations cat sim p.name 2 ≠ [] := by
  obtain ⟨r, hr⟩ := resolveIdx_of_mem hp
  have hlen : (contentBasedRecommendations cat sim p.name 2).length =
      min 2 (cat.length - 1) := by
    simp [contentBasedRecommendations, hr, List.length_map, contentIndices_length]
  intro hnil
  rw [hnil] at hlen
  simp at hlen
  omega

/-- Claim C2: the hybrid recommendation list never contains two entries
with equal name, for every catalog (rows with duplicate names allowed),
similarity matrix and n. -/
theorem hybrid_names_nodup (cat : List Place) (sim : ℕ → ℕ → ℚ) (n : ℕ) :
    ((hybridRecommendations cat sim n).map Place.name).Nodup := by
  simp only [hybridRecommendations]
  by_cases hc : (hybridContentRecs cat sim n).isEmpty
  · -- collab-only branch: reachable only for n = 0 or catalogs of one row
    rw [hybridCombined, if_pos hc]
    by_cases hn : n = 0
    · subst hn
      simp [nlargestPop]
    · have hN : cat.length ≤ 1 := by
        by_contra hN2
        push_neg at hN2
        have htop : nlargestPop 10 cat ≠ [] := by
          intro hnil
          have hl := length_nlargestPop 10 cat
          rw [hnil] at hl
          simp at hl
          omega
        obtain ⟨s, hs⟩ := List.exists_mem_of_ne_nil _ htop
        have hscat : s ∈ cat := mem_nlargestPop hs
        have hpiece := @contentBased_ne_nil cat sim s hscat (by omega)
        have hpieces : contentBasedRecommendations cat sim s.name 2 ∈
            hybridContentPieces cat sim := by
          rw [hybridContentPieces]
          apply List.mem_filter.mpr
          refine ⟨List.mem_map.mpr ⟨s, hs, rfl⟩, ?_⟩
          simp [List.isEmpty_iff, hpiece]
        have hflat : (hybridContentPieces cat sim).flatten ≠ [] := by
          intro hnil
          exact hpiece (List.flatten_eq_nil_iff.mp hnil _ hpieces)
        have hcc1 : 1 ≤ contentCountF n := by
          have := collabCountF_lt n (by omega)
          rw [contentCountF]
          omega
        have hne : hybridContentRecs cat sim n ≠ [] := by
          rw [hybridContentRecs]
          intro htake
          rcases List.take_eq_nil_iff.mp htake with h0 | hdd
          · omega
          · exact hflat ((dedupByKey_eq_nil_iff id _).mp hdd)
        rw [List.isEmpty_iff] at hc
        exact hne hc
      apply nodup_map_of_length_le_one
      have h1 := length_nlargestPop n (nlargestPop (collabCountF n) cat)
      have h2 := length_nlargestPop (collabCountF n) cat
      omega
  · rw [hybridCombined, if_neg hc]
    exact nodup_map_nlargestPop (dedupByKey_key_nodup Place.name _)

/-! ## Claim C9: the feed endpoint -/

theorem hybrid_one_eq_nil : hybridRecommendations oneCatalog oneSim 1 = [] := by
  have hcc : collabCountF 1 = 0 := Nat.lt_one_iff.mp (collabCountF_lt 1 le_rfl)
  have hpiece : contentBasedRecommendations oneCatalog oneSim "Solo" 2 = [] := by
    decide
  have hpieces : hybridContentPieces oneCatalog oneSim = [] := by
    rw [hybridContentPieces, show nlargestPop 10 oneCatalog = [onePlace] from rfl]
    have hname : onePlace.name = "Solo" := rfl
    simp [hname, hpiece]
  have hcontent : hybridContentRecs oneCatalog oneSim 1 = [] := by
    rw [hybridContentRecs, hpieces]
    simp [dedupByKey, dedupByKeyAux]
  simp only [hybridRecommendations, hybridCombined, hcontent, hcc]
  simp [nlargestPop, sortByDesc]

/-- Claim C9 counterexample: on the one-row catalog with page = 1 and
limit = 1, recommend(limit * page) is empty, so the slice the claim
describes is empty; but the code falls back to
collaborative_recommendations when the hybrid result is empty (app.py
lines 250-252), and the feed returns one place with has_more = true. -/
theorem feed_slice_cex :
    (feed oneCatalog oneSim 1 1).places = [onePlace] ∧
    (feed oneCatalog oneSim 1 1).hasMore = true ∧
    ((hybridRecommendations oneCatalog oneSim (1 * 1)).drop ((1 - 1) * 1)).take 1
      = [] := by
  have h3 : ((hybridRecommendations oneCatalog oneSim (1 * 1)).drop
      ((1 - 1) * 1)).take 1 = [] := by
    rw [show (1 * 1 : ℕ) = 1 from rfl, hybrid_one_eq_nil]
    rfl
  have hplaces : (feed oneCatalog oneSim 1 1).places = [onePlace] := by
    simp only [feed]
    rw [show (1 - 1) * 1 = 0 from rfl, show (1 + 0 : ℕ) = 1 from rfl,
      hybrid_one_eq_nil]
    rfl
  refine ⟨hplaces, ?_, h3⟩
  simp only [feed]
  rw [show (1 - 1) * 1 = 0 from rfl, show (1 + 0 : ℕ) = 1 from rfl,
    hybrid_one_eq_nil]
  rfl

/-- Claim C9 (amended): for every page >= 1 and limit >= 1, the feed
computes r = recommend(limit * page); when r is empty it falls back to
the popularity ranking top(limit * page); it slices the chosen list to
the half-open range [(page-1)*limit, page*limit) and reports has_more
exactly when the slice has length limit.  The only amendment is the
empty-result fallback clause, forced by the counterexample. -/
theorem feed_slice_amended (cat : List Place) (sim : ℕ → ℕ → ℚ)
    (page limit : ℕ) (hp : 1 ≤ page) (hl : 1 ≤ limit) :
    (feed cat sim page limit).places =
      ((if (hybridRecommendations cat sim (limit * page)).isEmpty then
          collaborativeRecommendations cat (limit * page)
        else hybridRecommendations cat sim (limit * page)).drop
        ((page - 1) * limit)).take limit ∧
    ((feed cat sim page limit).hasMore = true ↔
      ((feed cat sim page limit).places).length = limit) := by
  have harith : limit + (page - 1) * limit = limit * page := by
    obtain ⟨q, rfl⟩ : ∃ q, page = q + 1 := ⟨page - 1, by omega⟩
    simp only [Nat.add_sub_cancel]
    ring
  constructor
  · simp only [feed, harith]
  · simp only [feed]
    simp [decide_eq_true_iff]

/-- Witness for the amended claim C9 on the one-row catalog. -/
theorem feed_slice_amended_witness :
    (1:ℕ) ≤ 1 ∧
    ((feed oneCatalog oneSim 1 1).places =
      ((if (hybridRecommendations oneCatalog oneSim (1 * 1)).isEmpty then
          collaborativeRecommendations oneCatalog (1 * 1)
        else hybridRecommendations oneCatalog oneSim (1 * 1)).drop
        ((1 - 1) * 1)).take 1 ∧
    ((feed oneCatalog oneSim 1 1).hasMore = true ↔
      ((feed oneCatalog oneSim 1 1).places).length = 1)) :=
  ⟨le_rfl, feed_slice_amended oneCatalog oneSim 1 1 le_rfl le_rfl⟩

end DiscoverIndia
